import Mathlib

/-! # HVAC commissioner firmware: framing, authentication and dispatch

A shallow embedding of the serial command path of the Thread commissioner
firmware (`Commissioner/main/*.c`): the line framer, the command
authenticator, the dispatcher, the joiner admission and the role-change
handler.

Conventions of the embedding

* A C string is a `List Char`: the bytes that precede the terminating NUL.
  A function that receives a `char *` first cuts its argument at the first
  NUL (`cstr`), which is what `strlen`, `strcmp`, `strtok` and `strrchr` see.
* External calls (the OpenThread stack, the OpenThread lock, NVS, `printf`)
  are recorded in order in a trace of `Event`s; what they return is read from
  an `Env` record.  `ESP_LOGx` lines are not part of the trace.
* `otError` and the other C enumerations are numbers or small inductive types;
  HMAC-SHA256 (mbedtls) is a parameter of the development.
* `strdup` and `malloc` are taken to succeed (the failure branch of `strdup`
  logs and returns).
* The framer is run over a finite list of reads; a read is the list of bytes
  `uart_read_bytes` delivered, empty when it timed out or failed.
-/

namespace HVAC

/-! ## C string primitives -/

/-- The C string held by a buffer: everything before the first NUL. -/
def cstr (buf : List Char) : List Char :=
  buf.takeWhile (fun c => c != Char.ofNat 0)

/-- `strrchr(s, c)` followed by `*sep = 0`: the text before the last `c` and
the text after it, or `none` when `c` does not occur. -/
def splitAtLast (c : Char) : List Char → Option (List Char × List Char)
  | [] => none
  | x :: xs =>
    match splitAtLast c xs with
    | some (a, b) => some (x :: a, b)
    | none => if x = c then some ([], xs) else none

/-! ## security.c -/

/-- `SECURE_HMAC_KEY` of config.h. -/
def SECURE_HMAC_KEY : List Char := "PROD_SECRET_KEY_CHANGE_ME".toList

/-- The keyed digest computed by mbedtls: key, message, index of the output
byte (0..31) to the byte stored in `hmac_output[i]`. -/
abbrev Hmac := List Char → List Char → Nat → Nat

/-- One lowercase hexadecimal digit, as `%x` prints a value below 16. -/
def hexDigitLower (n : Nat) : Char :=
  if n < 10 then Char.ofNat (48 + n) else Char.ofNat (87 + n)

/-- `sprintf(.., "%02x", b)` for a `uint8_t` value. -/
def sprintf_02x (b : Nat) : List Char :=
  [hexDigitLower ((b % 256) / 16), hexDigitLower ((b % 256) % 16)]

/-- The loop `for (i = 0; i < 32; i++) sprintf(expected_sig_hex + i*2, ..)`,
run for `n` bytes starting at byte `i`. -/
def hexLoop (out : Nat → Nat) : Nat → Nat → List Char
  | _, 0 => []
  | i, n + 1 => sprintf_02x (out i) ++ hexLoop out (i + 1) n

/-- `expected_sig_hex` of `verify_command_signature` for a given body. -/
def expected_sig_hex (hmac : Hmac) (body : List Char) : List Char :=
  hexLoop (hmac SECURE_HMAC_KEY body) 0 32

/-- `verify_command_signature`: `some body` when the function returns true
(with `*cmd_part` the body), `none` when it returns false. -/
def verify_command_signature (hmac : Hmac) (input_buffer : List Char) :
    Option (List Char) :=
  match splitAtLast '|' (cstr input_buffer) with
  | none => none
  | some (body, received_sig_hex) =>
    if received_sig_hex = expected_sig_hex hmac body then some body else none

/-! ## libc: `strtoul` with base 16 (ISO C 7.22.1.4) -/

/-- `isspace` in the C locale. -/
def isspace (c : Char) : Bool :=
  c.toNat = 32 || (9 ≤ c.toNat && c.toNat ≤ 13)

/-- The value of a hexadecimal digit, `none` for any other character. -/
def hexVal (c : Char) : Option Nat :=
  if 48 ≤ c.toNat ∧ c.toNat ≤ 57 then some (c.toNat - 48)
  else if 97 ≤ c.toNat ∧ c.toNat ≤ 102 then some (c.toNat - 87)
  else if 65 ≤ c.toNat ∧ c.toNat ≤ 70 then some (c.toNat - 55)
  else none

/-- A character that is a hexadecimal digit in either case. -/
def isHexChar (c : Char) : Bool := (hexVal c).isSome

/-- A character that is a digit or one of the lowercase letters a..f. -/
def isLowerHex (c : Char) : Bool :=
  (48 ≤ c.toNat && c.toNat ≤ 57) || (97 ≤ c.toNat && c.toNat ≤ 102)

/-- `ULONG_MAX` of the 32-bit target. -/
def ULONG_MAX : Nat := 2 ^ 32 - 1

/-- The digit loop of `strtoul`: consumes hexadecimal digits, returns the
accumulated value and the unread rest. -/
def strtoul_digits : Nat → List Char → Nat × List Char
  | acc, [] => (acc, [])
  | acc, c :: cs =>
    match hexVal c with
    | some v => strtoul_digits (acc * 16 + v) cs
    | none => (acc, c :: cs)

/-- `strtoul(nptr, &endptr, 16)`: the returned value and the text `endptr`
points at.  White space is skipped, one sign is accepted, `0x`/`0X` is
accepted before a digit; without any digit the value is 0 and `endptr` is
`nptr`; a value above `ULONG_MAX` is clamped, a negated one wraps.  (For
`0x` without a digit after it the C library of the target leaves `endptr` at
`nptr` instead of at the `x`; in both readings `*endptr` is not NUL, which
is all that `hex_to_bytes` looks at.) -/
def strtoul16 (nptr : List Char) : Nat × List Char :=
  let s1 := nptr.dropWhile isspace
  let neg : Bool := s1.head? = some '-'
  let s2 := if s1.head? = some '-' ∨ s1.head? = some '+' then s1.tail else s1
  let s3 :=
    match s2 with
    | z :: x :: d :: r =>
      if z = '0' ∧ (x = 'x' ∨ x = 'X') ∧ (hexVal d).isSome then d :: r else s2
    | _ => s2
  match s3 with
  | [] => (0, nptr)
  | c :: _ =>
    if (hexVal c).isSome then
      let r := strtoul_digits 0 s3
      ((if ULONG_MAX < r.1 then ULONG_MAX
        else if neg then (2 ^ 32 - r.1) % 2 ^ 32 else r.1), r.2)
    else (0, nptr)

/-! ## The environment and the trace -/

/-- `otError`, a C enumeration, as its numeric value. -/
abbrev otError := Nat

/-- `OT_ERROR_NONE` (openthread/error.h). -/
def OT_ERROR_NONE : otError := 0
/-- `OT_ERROR_BUSY` (openthread/error.h). -/
def OT_ERROR_BUSY : otError := 5
/-- `OT_ERROR_INVALID_ARGS` (openthread/error.h). -/
def OT_ERROR_INVALID_ARGS : otError := 7

/-- The commissioner states of the stack. -/
inductive otCommissionerState
  | OT_COMMISSIONER_STATE_DISABLED
  | OT_COMMISSIONER_STATE_PETITION
  | OT_COMMISSIONER_STATE_ACTIVE
  deriving DecidableEq, Repr

/-- The device roles of the stack. -/
inductive otDeviceRole
  | OT_DEVICE_ROLE_DISABLED
  | OT_DEVICE_ROLE_DETACHED
  | OT_DEVICE_ROLE_CHILD
  | OT_DEVICE_ROLE_ROUTER
  | OT_DEVICE_ROLE_LEADER
  deriving DecidableEq, Repr

/-- The two callbacks of commissioner.c that can be handed to the stack. -/
inductive Callback
  | commissioner_state_cb
  | commissioner_joiner_cb
  deriving DecidableEq, Repr

/-- The dataset built by `form_new_network` (the five components it marks
present). -/
structure otOperationalDataset where
  mNetworkName : List Char
  mNetworkKey : List Nat
  mExtendedPanId : List Nat
  mPanId : Nat
  mChannel : Nat
  deriving DecidableEq, Repr

/-- One external call, with its arguments (the stack instance left out). -/
inductive Event
  | lock_acquire (timeout_ms : Nat) (acquired : Bool)
  | lock_release
  | otThreadGetDeviceRole
  | otCommissionerGetState
  | otCommissionerStart (state_cb joiner_cb : Option Callback)
  | otCommissionerStop
  | otCommissionerAddJoiner (id : Option (List Nat)) (pskd : List Char)
      (timeout : Nat)
  | otInstanceFactoryReset
  | otDatasetSetActive (dataset : otOperationalDataset)
  | otIp6SetEnabled (enabled : Bool)
  | otThreadSetEnabled (enabled : Bool)
  | printf (text : List Char)
  | nvs_flash_erase
  | esp_restart
  deriving DecidableEq, Repr

/-- What the external calls return during one operation. -/
structure Env where
  /-- `esp_openthread_lock_acquire(pdMS_TO_TICKS(ms))`. -/
  lock_acquire : Nat → Bool
  /-- `otThreadGetDeviceRole`. -/
  deviceRole : otDeviceRole
  /-- `otCommissionerGetState` as read by `on_thread_state_changed`. -/
  stateAtBridge : otCommissionerState
  /-- `otCommissionerGetState` as read by `commissioner_start`. -/
  stateAtController : otCommissionerState
  /-- `otCommissionerStart` (the callers only log it). -/
  startResult : otError
  /-- `otCommissionerAddJoiner`, by its arguments. -/
  addJoinerResult : Option (List Nat) → List Char → Nat → otError
  /-- `sizeof(otNetworkName)`. -/
  sizeof_otNetworkName : Nat
  /-- The bytes `esp_fill_random` puts in the network key. -/
  randomNetworkKey : List Nat
  /-- The bytes `esp_fill_random` puts in the extended PAN id. -/
  randomExtPanId : List Nat
  /-- `esp_random()`. -/
  esp_random : Nat

/-! ## joiner_manager.c -/

/-- The loop of `hex_to_bytes` from index `i` for `n` more bytes: each pair of
characters is copied to a 3-byte buffer and read by `strtoul`; a pair that
`strtoul` does not read to its end fails the conversion. -/
def hex_to_bytes_loop (hex_str : List Char) : Nat → Nat → Option (List Nat)
  | _, 0 => some []
  | i, n + 1 =>
    let buf := cstr [hex_str.getD (i * 2) (Char.ofNat 0),
                     hex_str.getD (i * 2 + 1) (Char.ofNat 0)]
    let r := strtoul16 buf
    if r.2 ≠ [] then none
    else (hex_to_bytes_loop hex_str (i + 1) n).map (fun bs => r.1 % 256 :: bs)

/-- `hex_to_bytes(hex_str, bytes, len)`: the bytes on success. -/
def hex_to_bytes (hex_str : List Char) (len : Nat) : Option (List Nat) :=
  if hex_str.length ≠ len * 2 then none else hex_to_bytes_loop hex_str 0 len

/-- Step 1 of `joiner_add_request` (a null `eui64_str` is `none`): `none` when
the function returns `OT_ERROR_INVALID_ARGS`, else the value of `p_id`, which
is null for a null or `*` argument and the decoded identity otherwise. -/
def parse_eui64 (eui64_str : Option (List Char)) : Option (Option (List Nat)) :=
  match eui64_str with
  | none => some none
  | some s =>
    if cstr s = ['*'] then some none
    else match hex_to_bytes (cstr s) 8 with
      | none => none
      | some id => some (some id)

/-- `joiner_add_request`: the returned `otError` and the external calls made.
A null `eui64_str` is `none`. -/
def joiner_add_request (env : Env) (eui64_str : Option (List Char))
    (pskd : List Char) (timeout : Nat) : otError × List Event :=
  match parse_eui64 eui64_str with
  | none => (OT_ERROR_INVALID_ARGS, [])
  | some p_id =>
    if env.lock_acquire 1000 = false then
      (OT_ERROR_BUSY, [Event.lock_acquire 1000 false])
    else
      let err := env.addJoinerResult p_id pskd timeout
      (err, [Event.lock_acquire 1000 true,
             Event.otCommissionerAddJoiner p_id pskd timeout,
             Event.lock_release])

/-! ## commissioner.c -/

/-- `commissioner_start`: reads the state, returns when it is ACTIVE, else
starts the commissioner with both callbacks. -/
def commissioner_start (env : Env) : List Event :=
  if env.stateAtController = otCommissionerState.OT_COMMISSIONER_STATE_ACTIVE then
    [Event.otCommissionerGetState]
  else
    [Event.otCommissionerGetState,
     Event.otCommissionerStart (some Callback.commissioner_state_cb)
       (some Callback.commissioner_joiner_cb)]

/-- `commissioner_stop`. -/
def commissioner_stop : List Event := [Event.otCommissionerStop]

/-! ## thread_init.c -/

/-- `form_new_network`. -/
def form_new_network (env : Env) (network_name : List Char) : List Event :=
  if env.lock_acquire 5000 then
    [Event.lock_acquire 5000 true,
     Event.otInstanceFactoryReset,
     Event.otDatasetSetActive
       { mNetworkName := (cstr network_name).take (env.sizeof_otNetworkName - 1)
         mNetworkKey := env.randomNetworkKey
         mExtendedPanId := env.randomExtPanId
         mPanId := env.esp_random % 65536
         mChannel := 15 },
     Event.otIp6SetEnabled true,
     Event.otThreadSetEnabled true,
     Event.printf "NETWORK_FORMED\n".toList,
     Event.lock_release]
  else [Event.lock_acquire 5000 false]

/-! ## main.c -/

/-- The event base of an `esp_event` notification. -/
inductive EventBase
  | OPENTHREAD_EVENT
  | other
  deriving DecidableEq, Repr

/-- The event id of an `esp_event` notification. -/
inductive EventId
  | OPENTHREAD_EVENT_ATTACHED
  | OPENTHREAD_EVENT_DETACHED
  | other
  deriving DecidableEq, Repr

/-- `on_thread_state_changed`. -/
def on_thread_state_changed (env : Env) (event_base : EventBase)
    (event_id : EventId) : List Event :=
  if event_base ≠ EventBase.OPENTHREAD_EVENT then []
  else if event_id = EventId.OPENTHREAD_EVENT_ATTACHED then
    Event.otThreadGetDeviceRole ::
      (if env.deviceRole = otDeviceRole.OT_DEVICE_ROLE_LEADER then
        if env.lock_acquire 1000 then
          [Event.lock_acquire 1000 true, Event.otCommissionerGetState]
            ++ (if env.stateAtBridge ≠
                  otCommissionerState.OT_COMMISSIONER_STATE_ACTIVE then
                  commissioner_start env
                else [])
            ++ [Event.lock_release]
        else [Event.lock_acquire 1000 false]
      else [])
  else []

/-! ## uart_rx.c -/

/-- The characters `process_command` strips from the end of a line. -/
def isTrailing (c : Char) : Bool := c = '\r' || c = '\n' || c = ' '

/-- One call of `strtok(.., " ")` on the text not yet read: the token and the
text after the delimiter that ends it, or `none` when no token is left. -/
def strtok (s : List Char) : Option (List Char × List Char) :=
  match s.dropWhile (fun c => c = ' ') with
  | [] => none
  | c :: t =>
    some ((c :: t).takeWhile (fun c => c != ' '),
          ((c :: t).dropWhile (fun c => c != ' ')).drop 1)

/-- The loop at the head of `process_command`: the line without its trailing
`\r`, `\n` and spaces. -/
def strip_line (raw_input : List Char) : List Char :=
  (cstr raw_input).rdropWhile isTrailing

/-- A token as `strtok` delivers one: a non-empty C string without a space. -/
def IsToken (t : List Char) : Prop :=
  t ≠ [] ∧ ' ' ∉ t ∧ Char.ofNat 0 ∉ t

/-- `process_command`: the external calls made for one line. -/
def process_command (hmac : Hmac) (env : Env) (raw_input : List Char) :
    List Event :=
  let line := strip_line raw_input
  if line = [] then []
  else
    let token := strtok line
    if token.map Prod.fst = some "commissioner_start".toList then
      if env.lock_acquire 1000 then
        [Event.lock_acquire 1000 true,
         Event.otCommissionerStart none none,
         Event.printf "COMMISSIONER_STARTED\n".toList,
         Event.lock_release]
      else [Event.lock_acquire 1000 false]
    else if token.map Prod.fst = some "commissioner_stop".toList then
      if env.lock_acquire 1000 then
        [Event.lock_acquire 1000 true,
         Event.otCommissionerStop,
         Event.printf "COMMISSIONER_STOPPED\n".toList,
         Event.lock_release]
      else [Event.lock_acquire 1000 false]
    else if token.map Prod.fst = some "FORM_NET".toList then
      match strtok ((token.map Prod.snd).getD []) with
      | some (net_name, _) => form_new_network env net_name
      | none => []
    else
      match verify_command_signature hmac line with
      | none => [Event.printf "ERROR SIG_INVALID\n".toList]
      | some cmd_str =>
        match strtok cmd_str with
        | none => []
        | some (verb, rest) =>
          if verb = "add".toList then
            match strtok rest with
            | none => []
            | some (id_str, rest2) =>
              match strtok rest2 with
              | none => []
              | some (cred, _) =>
                let r := joiner_add_request env (some id_str) cred 120
                r.2 ++
                  [Event.printf
                    (if r.1 = OT_ERROR_NONE then
                      "JOINER_ADDED ".toList ++ id_str ++ ['\n']
                    else
                      "ERROR ADD_FAILED ".toList ++ Nat.toDigits 10 r.1
                        ++ ['\n'])]
          else if verb = "factory_reset".toList then
            [Event.nvs_flash_erase, Event.esp_restart]
          else []

/-! ## uart_rx.c: the line framer -/

/-- `UART_RX_BUF_SIZE`. -/
def UART_RX_BUF_SIZE : Nat := 1024

/-- The static variables of `uart_rx_task`. -/
structure RxState where
  line_buffer : List Char
  line_pos : Nat
  deriving DecidableEq, Repr

/-- What `uart_rx_task` does with its buffer: a write `line_buffer[index] = c`
and the call `process_command(line_buffer)`, recorded with the `line_pos`
bytes that stand in front of the NUL just written (`process_command` makes
the same calls on these bytes as on the buffer, `process_command_buffer`). -/
inductive RxEvent
  | store (index : Nat) (c : Char)
  | process_command (line : List Char)
  deriving DecidableEq, Repr

/-- The static variables when the task starts: a zeroed buffer, position 0. -/
def rxInit : RxState :=
  { line_buffer := List.replicate UART_RX_BUF_SIZE (Char.ofNat 0), line_pos := 0 }

/-- The body of the `for` loop of `uart_rx_task` for one byte `c`. -/
def uart_rx_byte (st : RxState) (c : Char) : RxState × List RxEvent :=
  let line_pos := if st.line_pos ≥ UART_RX_BUF_SIZE - 1 then 0 else st.line_pos
  if c = '\n' then
    let line_buffer := st.line_buffer.set line_pos (Char.ofNat 0)
    ({ line_buffer := line_buffer, line_pos := 0 },
      RxEvent.store line_pos (Char.ofNat 0) ::
        (if line_pos > 0 then
          [RxEvent.process_command (line_buffer.take line_pos)]
        else []))
  else if c ≠ '\r' then
    ({ line_buffer := st.line_buffer.set line_pos c, line_pos := line_pos + 1 },
      [RxEvent.store line_pos c])
  else ({ line_buffer := st.line_buffer, line_pos := line_pos }, [])

/-- The `for` loop of `uart_rx_task` over the bytes of one read. -/
def uart_rx_chunk (st : RxState) : List Char → RxState × List RxEvent
  | [] => (st, [])
  | c :: cs =>
    ((uart_rx_chunk (uart_rx_byte st c).1 cs).1,
      (uart_rx_byte st c).2 ++ (uart_rx_chunk (uart_rx_byte st c).1 cs).2)

/-- The `while` loop of `uart_rx_task` over successive reads; a read that
times out or fails is an empty chunk. -/
def uart_rx_task (st : RxState) : List (List Char) → RxState × List RxEvent
  | [] => (st, [])
  | chunk :: rest =>
    ((uart_rx_task (uart_rx_chunk st chunk).1 rest).1,
      (uart_rx_chunk st chunk).2 ++ (uart_rx_task (uart_rx_chunk st chunk).1 rest).2)

/-- The lines handed to `process_command`, in order. -/
def commandLines (tr : List RxEvent) : List (List Char) :=
  tr.filterMap (fun e => match e with
    | RxEvent.process_command line => some line
    | _ => none)

/-- The indices of the buffer that are written, in order. -/
def storeIndices (tr : List RxEvent) : List Nat :=
  tr.filterMap (fun e => match e with
    | RxEvent.store index _ => some index
    | _ => none)

/-- The bytes a newline would hand over now: none when the position has
reached the reset threshold, else the first `line_pos` bytes of the buffer. -/
def pending (st : RxState) : List Char :=
  if st.line_pos ≥ UART_RX_BUF_SIZE - 1 then [] else st.line_buffer.take st.line_pos

/-- The buffer has its 1024 bytes and the position is at most 1023. -/
def RxState.wf (st : RxState) : Prop :=
  st.line_buffer.length = UART_RX_BUF_SIZE ∧ st.line_pos ≤ UART_RX_BUF_SIZE - 1

/-! ## Reading a trace -/

/-- A call into the mesh stack instance. -/
def Event.isStackCall : Event → Bool
  | Event.otThreadGetDeviceRole => true
  | Event.otCommissionerGetState => true
  | Event.otCommissionerStart _ _ => true
  | Event.otCommissionerStop => true
  | Event.otCommissionerAddJoiner _ _ _ => true
  | Event.otInstanceFactoryReset => true
  | Event.otDatasetSetActive _ => true
  | Event.otIp6SetEnabled _ => true
  | Event.otThreadSetEnabled _ => true
  | _ => false

/-- Runs the lock through a trace, from `held`: the lock state at the end, or
`none` when the lock is released while free or acquired while held. -/
def lockRun : Bool → List Event → Option Bool
  | held, [] => some held
  | held, Event.lock_acquire _ true :: tr =>
    if held then none else lockRun true tr
  | held, Event.lock_release :: tr =>
    if held then lockRun false tr else none
  | held, _ :: tr => lockRun held tr

/-- Every stack call of the trace is made while the lock is held (the lock
starting in state `held`). -/
def stackCallsUnderLock : Bool → List Event → Bool
  | _, [] => true
  | _, Event.lock_acquire _ true :: tr => stackCallsUnderLock true tr
  | _, Event.lock_release :: tr => stackCallsUnderLock false tr
  | held, e :: tr => (!e.isStackCall || held) && stackCallsUnderLock held tr

/-- The number of successful lock acquisitions in a trace. -/
def acquisitions (tr : List Event) : Nat :=
  tr.countP (fun e => match e with
    | Event.lock_acquire _ true => true
    | _ => false)

/-- The number of lock releases in a trace. -/
def releases (tr : List Event) : Nat :=
  tr.countP (fun e => match e with
    | Event.lock_release => true
    | _ => false)

/-- The lock discipline of one operation that starts with the lock free: the
lock is never released while free nor acquired while held, it is free at the
end, it is acquired at most once and released as often as it is acquired. -/
def lockBalanced (tr : List Event) : Prop :=
  lockRun false tr = some false ∧ releases tr = acquisitions tr ∧
    acquisitions tr ≤ 1

/-- The signature in the words of the spec, to be compared with
`expected_sig_hex`: the 32 bytes of the digest of the body under the
pre-shared key, each written as two characters of `0123456789abcdef`, the
high half first. -/
def spec_signature (hmac : Hmac) (body : List Char) : List Char :=
  (List.range 32).flatMap (fun i =>
    ["0123456789abcdef".toList.getD
        (hmac "PROD_SECRET_KEY_CHANGE_ME".toList body i % 256 / 16) '0',
     "0123456789abcdef".toList.getD
        (hmac "PROD_SECRET_KEY_CHANGE_ME".toList body i % 256 % 16) '0'])

/-- A toy digest used to instantiate the statements on concrete inputs. -/
def toyHmac : Hmac := fun key msg i => key.length + 7 * msg.length + 3 * i

/-- An environment in which the lock is free and every stack call succeeds. -/
def envOk : Env where
  lock_acquire := fun _ => true
  deviceRole := otDeviceRole.OT_DEVICE_ROLE_LEADER
  stateAtBridge := otCommissionerState.OT_COMMISSIONER_STATE_DISABLED
  stateAtController := otCommissionerState.OT_COMMISSIONER_STATE_DISABLED
  startResult := OT_ERROR_NONE
  addJoinerResult := fun _ _ _ => OT_ERROR_NONE
  sizeof_otNetworkName := 17
  randomNetworkKey := List.replicate 16 0
  randomExtPanId := List.replicate 8 0
  esp_random := 0

/-- An environment in which the lock cannot be acquired. -/
def envBusy : Env := { envOk with lock_acquire := fun _ => false }

/-- An environment in which the commissioner is already ACTIVE. -/
def envActive : Env :=
  { envOk with
    stateAtBridge := otCommissionerState.OT_COMMISSIONER_STATE_ACTIVE
    stateAtController := otCommissionerState.OT_COMMISSIONER_STATE_ACTIVE }

/-! ## Lemmas on the C string primitives -/

theorem cstr_eq_self {s : List Char} (h : Char.ofNat 0 ∉ s) : cstr s = s := by
  unfold cstr
  rw [List.takeWhile_eq_self_iff]
  intro c hc
  have : c ≠ Char.ofNat 0 := fun e => h (e ▸ hc)
  simpa using this

theorem splitAtLast_of_not_mem {c : Char} {t : List Char} (h : c ∉ t) :
    splitAtLast c t = none := by
  induction t with
  | nil => rfl
  | cons x xs ih =>
    have hx : x ≠ c := fun e => h (by simp [e])
    have hxs : c ∉ xs := fun e => h (by simp [e])
    simp [splitAtLast, ih hxs, hx]

theorem splitAtLast_append {c : Char} (b t : List Char) (h : c ∉ t) :
    splitAtLast c (b ++ c :: t) = some (b, t) := by
  induction b with
  | nil => simp [splitAtLast, splitAtLast_of_not_mem h]
  | cons x xs ih => simp [splitAtLast, ih]

theorem splitAtLast_isSome_of_mem {c : Char} {t : List Char} (h : c ∈ t) :
    (splitAtLast c t).isSome = true := by
  induction t with
  | nil => simp at h
  | cons x xs ih =>
    unfold splitAtLast
    cases hxs : splitAtLast c xs with
    | some p => simp
    | none =>
      rcases List.mem_cons.mp h with e | e
      · simp [e]
      · have := ih e
        simp [hxs] at this

theorem splitAtLast_some {c : Char} {s b t : List Char}
    (h : splitAtLast c s = some (b, t)) : s = b ++ c :: t ∧ c ∉ t := by
  induction s generalizing b with
  | nil => simp [splitAtLast] at h
  | cons x xs ih =>
    unfold splitAtLast at h
    cases hxs : splitAtLast c xs with
    | some p =>
      obtain ⟨a, r⟩ := p
      rw [hxs] at h
      simp only [Option.some.injEq, Prod.mk.injEq] at h
      obtain ⟨h1, h2⟩ := h
      subst h1 h2
      obtain ⟨e, hn⟩ := ih hxs
      exact ⟨by rw [List.cons_append, ← e], hn⟩
    | none =>
      rw [hxs] at h
      by_cases hx : x = c
      · simp only [hx, if_true, Option.some.injEq, Prod.mk.injEq] at h
        obtain ⟨h1, h2⟩ := h
        subst h1 h2 hx
        refine ⟨rfl, ?_⟩
        intro hm
        have := splitAtLast_isSome_of_mem hm
        simp [hxs] at this
      · simp [hx] at h

/-! ## Lemmas on the signature text -/

theorem hexDigitLower_isLowerHex {n : Nat} (h : n < 16) :
    isLowerHex (hexDigitLower n) = true := by
  interval_cases n <;> decide

theorem isLowerHex_ne {c : Char} (h : isLowerHex c = true) :
    c ≠ '|' ∧ c ≠ Char.ofNat 0 ∧ isTrailing c = false := by
  refine ⟨?_, ?_, ?_⟩
  · rintro rfl; revert h; decide
  · rintro rfl; revert h; decide
  · cases ht : isTrailing c with
    | false => rfl
    | true =>
      simp only [isTrailing, Bool.or_eq_true, decide_eq_true_eq] at ht
      rcases ht with (rfl | rfl) | rfl <;> revert h <;> decide

theorem mem_hexLoop {out : Nat → Nat} {c : Char} :
    ∀ (n i : Nat), c ∈ hexLoop out i n → isLowerHex c = true := by
  intro n
  induction n with
  | zero => intro i h; simp [hexLoop] at h
  | succ n ih =>
    intro i h
    simp only [hexLoop, sprintf_02x, List.cons_append, List.nil_append,
      List.mem_cons] at h
    rcases h with rfl | rfl | h
    · exact hexDigitLower_isLowerHex (by omega)
    · exact hexDigitLower_isLowerHex (by omega)
    · exact ih _ h

theorem length_hexLoop (out : Nat → Nat) :
    ∀ (n i : Nat), (hexLoop out i n).length = 2 * n := by
  intro n
  induction n with
  | zero => intro i; rfl
  | succ n ih =>
    intro i
    simp only [hexLoop, sprintf_02x, List.cons_append, List.nil_append,
      List.length_cons, ih]
    omega

theorem mem_expected_sig_hex {hmac : Hmac} {body : List Char} {c : Char}
    (h : c ∈ expected_sig_hex hmac body) : isLowerHex c = true :=
  mem_hexLoop 32 0 h

theorem length_expected_sig_hex (hmac : Hmac) (body : List Char) :
    (expected_sig_hex hmac body).length = 64 :=
  length_hexLoop _ 32 0

theorem bar_not_mem_expected (hmac : Hmac) (body : List Char) :
    '|' ∉ expected_sig_hex hmac body :=
  fun h => (isLowerHex_ne (mem_expected_sig_hex h)).1 rfl

theorem nul_not_mem_expected (hmac : Hmac) (body : List Char) :
    Char.ofNat 0 ∉ expected_sig_hex hmac body :=
  fun h => (isLowerHex_ne (mem_expected_sig_hex h)).2.1 rfl

/-- A correctly signed line is accepted, with the signed text as the body. -/
theorem verify_signed (hmac : Hmac) (B : List Char) (hB : Char.ofNat 0 ∉ B) :
    verify_command_signature hmac (B ++ '|' :: expected_sig_hex hmac B)
      = some B := by
  have hnul : Char.ofNat 0 ∉ B ++ '|' :: expected_sig_hex hmac B := by
    simp only [List.mem_append, List.mem_cons, not_or]
    exact ⟨hB, by decide, nul_not_mem_expected hmac B⟩
  unfold verify_command_signature
  rw [cstr_eq_self hnul, splitAtLast_append B _ (bar_not_mem_expected hmac B)]
  simp

/-- The authenticator returns a body exactly when the C string it is given is
that body, a `|`, and the expected signature of that body. -/
theorem verify_eq_some_iff (hmac : Hmac) (line body : List Char) :
    verify_command_signature hmac line = some body ↔
      cstr line = body ++ '|' :: expected_sig_hex hmac body := by
  constructor
  · intro h
    unfold verify_command_signature at h
    cases hs : splitAtLast '|' (cstr line) with
    | none => simp [hs] at h
    | some p =>
      obtain ⟨b, r⟩ := p
      rw [hs] at h
      simp only at h
      split_ifs at h with hr
      simp only [Option.some.injEq] at h
      subst h
      rw [(splitAtLast_some hs).1, hr]
  · intro h
    unfold verify_command_signature
    rw [h, splitAtLast_append body _ (bar_not_mem_expected hmac body)]
    simp

theorem isHexChar_ne {c : Char} (h : isHexChar c = true) :
    c ≠ '|' ∧ c ≠ Char.ofNat 0 ∧ c ≠ ' ' := by
  refine ⟨?_, ?_, ?_⟩ <;> (rintro rfl; revert h; decide)

/-- A line whose signature differs from the expected one in one position is
rejected. -/
theorem verify_tampered (hmac : Hmac) (B : List Char) (hB : Char.ofNat 0 ∉ B)
    (i : Nat) (hi : i < 64) (c : Char) (hc : isHexChar c = true)
    (hne : c ≠ (expected_sig_hex hmac B).getD i (Char.ofNat 0)) :
    verify_command_signature hmac
      (B ++ '|' :: (expected_sig_hex hmac B).set i c) = none := by
  have hlen := length_expected_sig_hex hmac B
  have hbar : '|' ∉ (expected_sig_hex hmac B).set i c := by
    intro h
    rcases List.mem_or_eq_of_mem_set h with h | h
    · exact bar_not_mem_expected hmac B h
    · exact (isHexChar_ne hc).1 h.symm
  have hnul0 : Char.ofNat 0 ∉ (expected_sig_hex hmac B).set i c := by
    intro h
    rcases List.mem_or_eq_of_mem_set h with h | h
    · exact nul_not_mem_expected hmac B h
    · exact (isHexChar_ne hc).2.1 h.symm
  have hnul : Char.ofNat 0 ∉ B ++ '|' :: (expected_sig_hex hmac B).set i c := by
    simp only [List.mem_append, List.mem_cons, not_or]
    exact ⟨hB, by decide, hnul0⟩
  have hdiff : (expected_sig_hex hmac B).set i c ≠ expected_sig_hex hmac B := by
    intro e
    have h1 : ((expected_sig_hex hmac B).set i c).getD i (Char.ofNat 0) = c := by
      simp [List.getD_eq_getElem?_getD, List.getElem?_set_self, hlen, hi]
    rw [e] at h1
    exact hne h1.symm
  unfold verify_command_signature
  rw [cstr_eq_self hnul, splitAtLast_append B _ hbar]
  simp [hdiff]

theorem hexDigitLower_eq_table {n : Nat} (h : n < 16) :
    hexDigitLower n = "0123456789abcdef".toList.getD n '0' := by
  interval_cases n <;> rfl

/-- The rendering loop writes, for each byte, its two digits from the table
`0123456789abcdef`. -/
theorem hexLoop_eq_flatMap (out : Nat → Nat) :
    ∀ (n i : Nat), hexLoop out i n
      = (List.range' i n).flatMap (fun j =>
          ["0123456789abcdef".toList.getD (out j % 256 / 16) '0',
           "0123456789abcdef".toList.getD (out j % 256 % 16) '0']) := by
  intro n
  induction n with
  | zero => intro i; rfl
  | succ n ih =>
    intro i
    rw [List.range'_succ, List.flatMap_cons, ← ih (i + 1), hexLoop, sprintf_02x,
      hexDigitLower_eq_table (show out i % 256 / 16 < 16 by omega),
      hexDigitLower_eq_table (show out i % 256 % 16 < 16 by omega)]

/-- The text the code compares with is the signature of the spec. -/
theorem expected_sig_hex_eq_spec (hmac : Hmac) (body : List Char) :
    expected_sig_hex hmac body = spec_signature hmac body := by
  unfold expected_sig_hex spec_signature
  rw [hexLoop_eq_flatMap, List.range_eq_range']
  rfl

/-- Characters `2k` and `2k+1` of the rendering are the digits of byte
`i + k`. -/
theorem getD_hexLoop (out : Nat → Nat) (d : Char) :
    ∀ (n i k : Nat), k < n →
      (hexLoop out i n).getD (2 * k) d
          = "0123456789abcdef".toList.getD (out (i + k) % 256 / 16) '0' ∧
        (hexLoop out i n).getD (2 * k + 1) d
          = "0123456789abcdef".toList.getD (out (i + k) % 256 % 16) '0' := by
  intro n
  induction n with
  | zero => intro i k h; omega
  | succ n ih =>
    intro i k h
    cases k with
    | zero =>
      simp only [hexLoop, sprintf_02x, List.cons_append, List.nil_append,
        Nat.mul_zero, Nat.zero_add, Nat.add_zero, List.getD_cons_zero,
        List.getD_cons_succ]
      exact ⟨hexDigitLower_eq_table (by omega), hexDigitLower_eq_table (by omega)⟩
    | succ k =>
      have := ih (i + 1) k (by omega)
      rw [show i + 1 + k = i + (k + 1) by omega] at this
      simp only [hexLoop, sprintf_02x, List.cons_append, List.nil_append,
        show 2 * (k + 1) = 2 * k + 1 + 1 by omega, List.getD_cons_succ]
      exact this

/-- C1: for every NUL-free body `B` (it may contain `|`), the authenticator
applied to `B`, a `|` and the signature of the spec (the 64 characters that
write the 32 bytes of the digest of `B` under the pre-shared key
`PROD_SECRET_KEY_CHANGE_ME` in lowercase hexadecimal, high half first)
succeeds and returns exactly `B`.  The text the code computes is that
signature: it is 64 characters long, all of them digits or letters a..f, and
its characters `2i` and `2i+1` are the two digits of byte `i` of the
digest. -/
theorem C1_verify_round_trip (hmac : Hmac) (B : List Char)
    (hB : Char.ofNat 0 ∉ B) :
    verify_command_signature hmac (B ++ '|' :: spec_signature hmac B) = some B
      ∧ verify_command_signature hmac (B ++ '|' :: expected_sig_hex hmac B)
          = some B
      ∧ expected_sig_hex hmac B = spec_signature hmac B
      ∧ (expected_sig_hex hmac B).length = 64
      ∧ (∀ c ∈ expected_sig_hex hmac B, isLowerHex c = true)
      ∧ ∀ i, i < 32 →
          (expected_sig_hex hmac B).getD (2 * i) (Char.ofNat 0)
              = "0123456789abcdef".toList.getD
                  (hmac "PROD_SECRET_KEY_CHANGE_ME".toList B i % 256 / 16) '0' ∧
            (expected_sig_hex hmac B).getD (2 * i + 1) (Char.ofNat 0)
              = "0123456789abcdef".toList.getD
                  (hmac "PROD_SECRET_KEY_CHANGE_ME".toList B i % 256 % 16) '0' := by
  refine ⟨?_, verify_signed hmac B hB, expected_sig_hex_eq_spec hmac B,
    length_expected_sig_hex hmac B, fun _ h => mem_expected_sig_hex h, ?_⟩
  · rw [← expected_sig_hex_eq_spec]
    exact verify_signed hmac B hB
  · intro i hi
    have := getD_hexLoop (hmac SECURE_HMAC_KEY B) (Char.ofNat 0) 32 0 i hi
    rw [Nat.zero_add] at this
    exact this

/-- C1 on the body `add a|b c`, which itself contains a `|`, with the signature
written out: under the toy digest byte `i` of the digest is `88 + 3 * i`. -/
theorem C1_verify_round_trip_witness :
    Char.ofNat 0 ∉ "add a|b c".toList ∧
      verify_command_signature toyHmac
        ("add a|b c|585b5e6164676a6d707376797c7f8285888b8e9194979a9da0a3a6a9acafb2b5".toList)
        = some "add a|b c".toList :=
  ⟨by decide,
    (show "add a|b c|585b5e6164676a6d707376797c7f8285888b8e9194979a9da0a3a6a9acafb2b5".toList
        = "add a|b c".toList ++ '|' :: spec_signature toyHmac "add a|b c".toList
      by decide) ▸
      (C1_verify_round_trip toyHmac "add a|b c".toList (by decide)).1⟩

/-- C2: replacing one of the 64 signature characters of a correctly signed
line by a different hexadecimal digit of either case makes the authenticator
fail; the authenticator succeeds exactly on a body followed by `|` and the 64
lowercase characters expected for that body. -/
theorem C2_tampered_signature_rejected (hmac : Hmac) (B : List Char)
    (hB : Char.ofNat 0 ∉ B) (i : Nat) (hi : i < 64) (c : Char)
    (hc : isHexChar c = true)
    (hne : c ≠ (expected_sig_hex hmac B).getD i (Char.ofNat 0)) :
    verify_command_signature hmac
        (B ++ '|' :: (expected_sig_hex hmac B).set i c) = none
      ∧ ∀ line body, verify_command_signature hmac line = some body ↔
          cstr line = body ++ '|' :: expected_sig_hex hmac body :=
  ⟨verify_tampered hmac B hB i hi c hc hne, verify_eq_some_iff hmac⟩

/-- C2 on the body `add * X`, whose signature starts with `4a`
and is tampered with at position 1, where `a` becomes `A`. -/
theorem C2_tampered_signature_rejected_witness :
    (expected_sig_hex toyHmac "add * X".toList).getD 1 (Char.ofNat 0) = 'a' ∧
      verify_command_signature toyHmac
        ("add * X".toList ++ '|' ::
          (expected_sig_hex toyHmac "add * X".toList).set 1 'A') = none :=
  ⟨by decide,
    (C2_tampered_signature_rejected toyHmac "add * X".toList (by decide) 1
      (by decide) 'A' (by decide) (by decide)).1⟩

/-! ## Lemmas on the dispatcher -/

theorem nul_not_mem_cstr (s : List Char) : Char.ofNat 0 ∉ cstr s := by
  intro h
  have := List.mem_takeWhile_imp h
  simp at this

theorem nul_not_mem_strip_line (raw : List Char) :
    Char.ofNat 0 ∉ strip_line raw := fun h =>
  nul_not_mem_cstr raw ((List.rdropWhile_prefix _ _).subset h)

theorem cstr_strip_line (raw : List Char) :
    cstr (strip_line raw) = strip_line raw :=
  cstr_eq_self (nul_not_mem_strip_line raw)

/-- A line that ends in a signature is left as it is by the strip loop. -/
theorem strip_line_signed (X sig : List Char) (hX : Char.ofNat 0 ∉ X)
    (hsig : ∀ c ∈ sig, isLowerHex c = true) (hne : sig ≠ []) :
    strip_line (X ++ sig) = X ++ sig := by
  have hnul : Char.ofNat 0 ∉ X ++ sig := by
    simp only [List.mem_append, not_or]
    exact ⟨hX, fun h => (isLowerHex_ne (hsig _ h)).2.1 rfl⟩
  unfold strip_line
  rw [cstr_eq_self hnul, List.rdropWhile_eq_self_iff]
  intro hl
  rw [List.getLast_append_of_ne_nil hne]
  simp [(isLowerHex_ne (hsig _ (List.getLast_mem hne))).2.2]

theorem strtok_token_space {t : List Char} (r : List Char) (h : IsToken t) :
    strtok (t ++ ' ' :: r) = some (t, r) := by
  obtain ⟨hne, hsp, -⟩ := h
  cases t with
  | nil => exact absurd rfl hne
  | cons c t =>
    have hc : c ≠ ' ' := fun e => hsp (by simp [e])
    have hall : ∀ a ∈ c :: t, (fun x : Char => x != ' ') a = true := by
      intro a ha
      have : a ≠ ' ' := fun e => hsp (e ▸ ha)
      simpa using this
    unfold strtok
    have h1 : List.dropWhile (fun c => decide (c = ' ')) (c :: t ++ ' ' :: r)
        = c :: t ++ ' ' :: r := by
      simp [List.dropWhile, hc]
    rw [h1]
    simp only [List.cons_append]
    rw [← List.cons_append, List.takeWhile_append_of_pos hall,
      List.dropWhile_append_of_pos hall]
    simp

theorem strtok_token_end {t : List Char} (h : IsToken t) :
    strtok t = some (t, []) := by
  obtain ⟨hne, hsp, -⟩ := h
  cases t with
  | nil => exact absurd rfl hne
  | cons c t =>
    have hc : c ≠ ' ' := fun e => hsp (by simp [e])
    have hall : ∀ a ∈ c :: t, (fun x : Char => x != ' ') a = true := by
      intro a ha
      have : a ≠ ' ' := fun e => hsp (e ▸ ha)
      simpa using this
    unfold strtok
    have h1 : List.dropWhile (fun c => decide (c = ' ')) (c :: t) = c :: t := by
      simp [List.dropWhile, hc]
    rw [h1]
    simp only
    rw [List.takeWhile_eq_self_iff.mpr hall, List.dropWhile_eq_nil_iff.mpr hall]
    rfl

theorem isToken_add : IsToken "add".toList := by
  unfold IsToken; decide

/-- The authenticator fails on a stripped line without `|` and on one whose
text after the last `|` is not the expected signature. -/
theorem verify_strip_line_none (hmac : Hmac) (raw : List Char)
    (hauth : '|' ∉ strip_line raw ∨
      ∃ body sig, strip_line raw = body ++ '|' :: sig ∧ '|' ∉ sig ∧
        sig ≠ expected_sig_hex hmac body) :
    verify_command_signature hmac (strip_line raw) = none := by
  unfold verify_command_signature
  rw [cstr_strip_line]
  rcases hauth with h | ⟨body, sig, e, hbar, hsig⟩
  · rw [splitAtLast_of_not_mem h]
  · rw [e, splitAtLast_append body sig hbar]
    simp [hsig]

/-- C3: a command line (the line as `process_command` handles it, once its
loop has stripped trailing `\r`, `\n` and spaces) that is not empty, whose
first token is none of the unsigned verbs, and that fails
authentication (no `|` in it, or the text after its last `|` is not the
signature expected for the text before it) produces exactly the response
`ERROR SIG_INVALID`: the trace holds that one `printf` and no lock, stack,
NVS or restart call. -/
theorem C3_rejected_line_has_no_effect (hmac : Hmac) (env : Env)
    (raw : List Char)
    (hne : strip_line raw ≠ [])
    (hverb : (strtok (strip_line raw)).map Prod.fst
        ≠ some "commissioner_start".toList ∧
      (strtok (strip_line raw)).map Prod.fst
        ≠ some "commissioner_stop".toList ∧
      (strtok (strip_line raw)).map Prod.fst ≠ some "FORM_NET".toList)
    (hauth : '|' ∉ strip_line raw ∨
      ∃ body sig, strip_line raw = body ++ '|' :: sig ∧ '|' ∉ sig ∧
        sig ≠ expected_sig_hex hmac body) :
    process_command hmac env raw
      = [Event.printf "ERROR SIG_INVALID\n".toList] := by
  unfold process_command
  simp only [hne, if_false, hverb.1, hverb.2.1, hverb.2.2,
    verify_strip_line_none hmac raw hauth]

/-- C3 on `add 0011223344556677 ABCD1234|00..00`, a wrong signature. -/
theorem C3_rejected_line_has_no_effect_witness :
    process_command toyHmac envOk
        ("add 0011223344556677 ABCD1234|".toList ++ List.replicate 64 '0')
      = [Event.printf "ERROR SIG_INVALID\n".toList] :=
  C3_rejected_line_has_no_effect toyHmac envOk
    ("add 0011223344556677 ABCD1234|".toList ++ List.replicate 64 '0')
    (by decide) (by decide)
    (Or.inr ⟨"add 0011223344556677 ABCD1234".toList, List.replicate 64 '0',
      by decide, by decide, by decide⟩)

/-- The response `process_command` prints after `joiner_add_request`. -/
theorem signed_add (hmac : Hmac) (env : Env) (I C : List Char)
    (hI : IsToken I) (hC : IsToken C) :
    process_command hmac env
        ("add".toList ++ ' ' :: (I ++ ' ' :: C) ++
          '|' :: expected_sig_hex hmac ("add".toList ++ ' ' :: (I ++ ' ' :: C)))
      = (joiner_add_request env (some I) C 120).2 ++
          [Event.printf
            (if (joiner_add_request env (some I) C 120).1 = OT_ERROR_NONE then
              "JOINER_ADDED ".toList ++ I ++ ['\n']
            else
              "ERROR ADD_FAILED ".toList
                ++ Nat.toDigits 10 (joiner_add_request env (some I) C 120).1
                ++ ['\n'])] := by
  have hbody : Char.ofNat 0 ∉ "add".toList ++ ' ' :: (I ++ ' ' :: C) := by
    simp only [List.mem_append, List.mem_cons, not_or]
    exact ⟨by decide, by decide, hI.2.2, by decide, hC.2.2⟩
  have hX : Char.ofNat 0 ∉ "add".toList ++ ' ' :: (I ++ ' ' :: C) ++ ['|'] := by
    simp only [List.mem_append, not_or]
    exact ⟨by simpa only [List.mem_append, not_or] using hbody, by decide⟩
  have hsigne : expected_sig_hex hmac ("add".toList ++ ' ' :: (I ++ ' ' :: C)) ≠ [] := by
    intro e
    have := length_expected_sig_hex hmac ("add".toList ++ ' ' :: (I ++ ' ' :: C))
    rw [e] at this
    simp at this
  have hstrip := strip_line_signed _ _ hX
    (fun c h => mem_expected_sig_hex h) hsigne
  rw [List.append_assoc, List.singleton_append] at hstrip
  have htok : strtok ("add".toList ++ ' ' :: (I ++ ' ' :: C) ++
      '|' :: expected_sig_hex hmac ("add".toList ++ ' ' :: (I ++ ' ' :: C)))
      = some ("add".toList, I ++ ' ' :: C ++
          '|' :: expected_sig_hex hmac ("add".toList ++ ' ' :: (I ++ ' ' :: C))) := by
    have := strtok_token_space (I ++ ' ' :: C ++
          '|' :: expected_sig_hex hmac ("add".toList ++ ' ' :: (I ++ ' ' :: C)))
          isToken_add
    simpa only [List.append_assoc, List.cons_append] using this
  unfold process_command
  simp only [hstrip, htok, Option.map_some']
  rw [if_neg (by simp), if_neg (by decide), if_neg (by decide), if_neg (by decide),
    verify_signed hmac _ hbody]
  simp only [strtok_token_space _ isToken_add, strtok_token_space C hI,
    strtok_token_end hC, if_true]

/-- C4: for tokens `I` and `C`, the correctly signed line `add I C|<sig>`
makes `process_command` run `joiner_add_request` once on identity `I`,
credential `C` and timeout 120 and then print `JOINER_ADDED I` when that
returns `OT_ERROR_NONE` and `ERROR ADD_FAILED <code>` with the decimal code
otherwise. -/
theorem C4_signed_add_dispatch (hmac : Hmac) (env : Env) (I C : List Char)
    (hI : IsToken I) (hC : IsToken C) :
    process_command hmac env
        ("add".toList ++ ' ' :: (I ++ ' ' :: C) ++
          '|' :: expected_sig_hex hmac ("add".toList ++ ' ' :: (I ++ ' ' :: C)))
      = (joiner_add_request env (some I) C 120).2 ++
          [Event.printf
            (if (joiner_add_request env (some I) C 120).1 = OT_ERROR_NONE then
              "JOINER_ADDED ".toList ++ I ++ ['\n']
            else
              "ERROR ADD_FAILED ".toList
                ++ Nat.toDigits 10 (joiner_add_request env (some I) C 120).1
                ++ ['\n'])] :=
  signed_add hmac env I C hI hC

/-- C4 on the line of the end-to-end scenario, with a stack that accepts the
joiner, and on an identity that `joiner_add_request` refuses with code 7. -/
theorem C4_signed_add_dispatch_witness :
    process_command toyHmac envOk
        ("add 0011223344556677 ABCD1234|".toList ++
          expected_sig_hex toyHmac "add 0011223344556677 ABCD1234".toList)
      = [Event.lock_acquire 1000 true,
         Event.otCommissionerAddJoiner (some [0, 17, 34, 51, 68, 85, 102, 119])
           "ABCD1234".toList 120,
         Event.lock_release,
         Event.printf "JOINER_ADDED 0011223344556677\n".toList] ∧
      process_command toyHmac envOk
        ("add xyz ABCD1234|".toList ++
          expected_sig_hex toyHmac "add xyz ABCD1234".toList)
      = [Event.printf "ERROR ADD_FAILED 7\n".toList] :=
  ⟨(C4_signed_add_dispatch toyHmac envOk "0011223344556677".toList
      "ABCD1234".toList (by unfold IsToken; decide)
      (by unfold IsToken; decide)).trans (by decide),
   (C4_signed_add_dispatch toyHmac envOk "xyz".toList
      "ABCD1234".toList (by unfold IsToken; decide)
      (by unfold IsToken; decide)).trans (by decide)⟩

/-! ## Lemmas on the identity parser -/

theorem hexVal_lt {c : Char} {v : Nat} (h : hexVal c = some v) : v < 16 := by
  unfold hexVal at h
  split_ifs at h <;> simp only [Option.some.injEq] at h <;> omega

theorem isHexChar_iff {c : Char} :
    isHexChar c = true ↔ ∃ v, hexVal c = some v := by
  unfold isHexChar
  cases hexVal c <;> simp

theorem isHexChar_not_space {c : Char} (h : isHexChar c = true) :
    isspace c = false := by
  simp only [isHexChar, hexVal] at h
  simp only [isspace, Bool.or_eq_false_iff, Bool.and_eq_false_iff,
    decide_eq_false_iff_not]
  split_ifs at h <;> first | omega | simp at h

theorem isHexChar_not_sign {c : Char} (h : isHexChar c = true) :
    c ≠ '-' ∧ c ≠ '+' := by
  refine ⟨?_, ?_⟩ <;> (rintro rfl; revert h; decide)

/-- What `strtoul` makes of a buffer that holds two hexadecimal digits. -/
theorem strtoul16_hex_pair {c1 c2 : Char} (h1 : isHexChar c1 = true)
    (h2 : isHexChar c2 = true) :
    strtoul16 (cstr [c1, c2])
      = (16 * (hexVal c1).getD 0 + (hexVal c2).getD 0, []) := by
  obtain ⟨v1, e1⟩ := isHexChar_iff.mp h1
  obtain ⟨v2, e2⟩ := isHexChar_iff.mp h2
  have l1 := hexVal_lt e1
  have l2 := hexVal_lt e2
  have hn : Char.ofNat 0 ∉ [c1, c2] := by
    simp only [List.mem_cons, List.mem_singleton, List.not_mem_nil, or_false, not_or]
    exact ⟨fun e => (isHexChar_ne h1).2.1 e.symm, fun e => (isHexChar_ne h2).2.1 e.symm⟩
  rw [cstr_eq_self hn]
  unfold strtoul16
  simp only [List.dropWhile, isHexChar_not_space h1, List.head?_cons,
    Option.some.injEq, (isHexChar_not_sign h1).1, (isHexChar_not_sign h1).2,
    or_self, if_false, e1, Option.isSome_some, if_true, strtoul_digits, e2,
    decide_False, Bool.false_eq_true, Option.getD_some, ULONG_MAX]
  have : ¬ (2 ^ 32 - 1 < (0 * 16 + v1) * 16 + v2) := by omega
  simp only [this, if_false, Prod.mk.injEq, and_true]
  omega

theorem getD_mem_of_lt {s : List Char} {k : Nat} (h : k < s.length) (d : Char) :
    s.getD k d ∈ s := by
  rw [List.getD_eq_getElem _ _ h]
  exact List.getElem_mem h

/-- The conversion loop on a text of hexadecimal digits. -/
theorem hex_to_bytes_loop_hex (s : List Char)
    (hhex : ∀ c ∈ s, isHexChar c = true) :
    ∀ (n i : Nat), 2 * (i + n) ≤ s.length →
      hex_to_bytes_loop s i n = some ((List.range' i n).map (fun k =>
        16 * (hexVal (s.getD (2 * k) (Char.ofNat 0))).getD 0
          + (hexVal (s.getD (2 * k + 1) (Char.ofNat 0))).getD 0)) := by
  intro n
  induction n with
  | zero => intro i _; rfl
  | succ n ih =>
    intro i hle
    have h1 := hhex _ (getD_mem_of_lt (show i * 2 < s.length by omega) (Char.ofNat 0))
    have h2 := hhex _ (getD_mem_of_lt (show i * 2 + 1 < s.length by omega) (Char.ofNat 0))
    obtain ⟨v1, e1⟩ := isHexChar_iff.mp h1
    obtain ⟨v2, e2⟩ := isHexChar_iff.mp h2
    have l1 := hexVal_lt e1
    have l2 := hexVal_lt e2
    unfold hex_to_bytes_loop
    simp only [strtoul16_hex_pair h1 h2, ne_eq, not_true_eq_false, if_false,
      ih (i + 1) (by omega), Option.map_some', List.range'_succ, List.map_cons,
      Option.some.injEq, List.cons.injEq, and_true]
    rw [Nat.mul_comm 2 i, e1, e2]
    simp only [Option.getD_some]
    omega

theorem hexVal_case (n : Nat)
    (h : (48 ≤ n ∧ n ≤ 57) ∨ (97 ≤ n ∧ n ≤ 102) ∨ (65 ≤ n ∧ n ≤ 70)) :
    hexVal (Char.ofNat n).toUpper = hexVal (Char.ofNat n) ∧
      hexVal (Char.ofNat n).toLower = hexVal (Char.ofNat n) := by
  rcases h with ⟨a, b⟩ | ⟨a, b⟩ | ⟨a, b⟩ <;> interval_cases n <;> decide

theorem hexVal_toUpper_toLower {c : Char} (h : isHexChar c = true) :
    hexVal c.toUpper = hexVal c ∧ hexVal c.toLower = hexVal c := by
  have hc := hexVal_case c.toNat (by
    simp only [isHexChar, hexVal] at h
    split_ifs at h with a b d
    · exact Or.inl a
    · exact Or.inr (Or.inl b)
    · exact Or.inr (Or.inr d)
    · simp at h)
  rwa [Char.ofNat_toNat] at hc

/-- The bytes decoded from a text of 16 hexadecimal digits. -/
theorem hex_to_bytes_hex (s : List Char) (hlen : s.length = 16)
    (hhex : ∀ c ∈ s, isHexChar c = true) :
    hex_to_bytes (cstr s) 8 = some ((List.range 8).map (fun k =>
        16 * (hexVal (s.getD (2 * k) (Char.ofNat 0))).getD 0
          + (hexVal (s.getD (2 * k + 1) (Char.ofNat 0))).getD 0)) := by
  have hn : Char.ofNat 0 ∉ s := fun h => (isHexChar_ne (hhex _ h)).2.1 rfl
  rw [cstr_eq_self hn]
  unfold hex_to_bytes
  rw [if_neg (by simp [hlen]), hex_to_bytes_loop_hex s hhex 8 0 (by omega),
    List.range_eq_range']

/-- `joiner_add_request` on an identity of 16 hexadecimal digits, the lock
being free. -/
theorem joiner_add_request_hex (env : Env) (s pskd : List Char) (timeout : Nat)
    (hlen : s.length = 16) (hhex : ∀ c ∈ s, isHexChar c = true)
    (hlock : env.lock_acquire 1000 = true) :
    joiner_add_request env (some s) pskd timeout
      = (env.addJoinerResult (some ((List.range 8).map (fun k =>
            16 * (hexVal (s.getD (2 * k) (Char.ofNat 0))).getD 0
              + (hexVal (s.getD (2 * k + 1) (Char.ofNat 0))).getD 0)))
            pskd timeout,
         [Event.lock_acquire 1000 true,
          Event.otCommissionerAddJoiner (some ((List.range 8).map (fun k =>
            16 * (hexVal (s.getD (2 * k) (Char.ofNat 0))).getD 0
              + (hexVal (s.getD (2 * k + 1) (Char.ofNat 0))).getD 0)))
            pskd timeout,
          Event.lock_release]) := by
  have hn : Char.ofNat 0 ∉ s := fun h => (isHexChar_ne (hhex _ h)).2.1 rfl
  have hstar : cstr s ≠ ['*'] := by
    rw [cstr_eq_self hn]
    intro e
    rw [e] at hlen
    simp at hlen
  unfold joiner_add_request parse_eui64
  simp only [hstar, if_false, hex_to_bytes_hex s hlen hhex, hlock,
    Bool.true_eq_false]

/-- Changing the case of the digits does not change the decoded bytes. -/
theorem decoded_bytes_map (s : List Char) (f : Char → Char)
    (hf0 : f (Char.ofNat 0) = Char.ofNat 0)
    (hf : ∀ c, isHexChar c = true → hexVal (f c) = hexVal c)
    (hlen : s.length = 16) (hhex : ∀ c ∈ s, isHexChar c = true) :
    (List.range 8).map (fun k =>
        16 * (hexVal ((s.map f).getD (2 * k) (Char.ofNat 0))).getD 0
          + (hexVal ((s.map f).getD (2 * k + 1) (Char.ofNat 0))).getD 0)
      = (List.range 8).map (fun k =>
        16 * (hexVal (s.getD (2 * k) (Char.ofNat 0))).getD 0
          + (hexVal (s.getD (2 * k + 1) (Char.ofNat 0))).getD 0) := by
  apply List.map_congr_left
  intro k hk
  have hk8 : k < 8 := List.mem_range.mp hk
  have g : ∀ j, j < 16 →
      hexVal ((s.map f).getD j (Char.ofNat 0)) = hexVal (s.getD j (Char.ofNat 0)) := by
    intro j hj
    have := List.getD_map (l := s) (d := Char.ofNat 0) (n := j) f
    rw [hf0] at this
    rw [this]
    exact hf _ (hhex _ (getD_mem_of_lt (by omega) _))
  rw [g (2 * k) (by omega), g (2 * k + 1) (by omega)]

/-- C5, the code at an identity that is not made of hexadecimal digits: the
16-character token `+1+1+1+1+1+1+1+1` is not rejected by `joiner_add_request`;
the lock is taken and the stack is asked to admit the identity
`01 01 01 01 01 01 01 01`, also when the token arrives in a signed `add`
line.  Tokens of 15 and 17 digits are rejected without any call. -/
theorem C5_signed_identity_accepted :
    isHexChar '+' = false ∧
      process_command toyHmac envOk
          ("add +1+1+1+1+1+1+1+1 ABCD1234|".toList ++
            expected_sig_hex toyHmac "add +1+1+1+1+1+1+1+1 ABCD1234".toList)
        = [Event.lock_acquire 1000 true,
           Event.otCommissionerAddJoiner (some [1, 1, 1, 1, 1, 1, 1, 1])
             "ABCD1234".toList 120,
           Event.lock_release,
           Event.printf "JOINER_ADDED +1+1+1+1+1+1+1+1\n".toList] ∧
      joiner_add_request envOk (some "+1+1+1+1+1+1+1+1".toList)
          "ABCD1234".toList 120
        = (OT_ERROR_NONE,
           [Event.lock_acquire 1000 true,
            Event.otCommissionerAddJoiner (some [1, 1, 1, 1, 1, 1, 1, 1])
              "ABCD1234".toList 120,
            Event.lock_release]) ∧
      joiner_add_request envOk (some "-1\t1\t1+a-a0AfF00".toList)
          "ABCD1234".toList 120
        = (OT_ERROR_NONE,
           [Event.lock_acquire 1000 true,
            Event.otCommissionerAddJoiner
              (some [255, 1, 1, 10, 246, 10, 255, 0]) "ABCD1234".toList 120,
            Event.lock_release]) ∧
      joiner_add_request envOk (some "001122334455667".toList)
          "ABCD1234".toList 120 = (OT_ERROR_INVALID_ARGS, []) ∧
      joiner_add_request envOk (some "00112233445566778".toList)
          "ABCD1234".toList 120 = (OT_ERROR_INVALID_ARGS, []) := by
  decide

/-- C6: for a text `s` of exactly 16 hexadecimal digits and a free lock, the
identity handed to the stack's add-joiner call has byte `i` equal to
`16 * value(s[2i]) + value(s[2i+1])` for `i = 0..7`; the upper-case and the
lower-case spelling of `s` give the same call and result; for `*` the
identity handed over is null. -/
theorem C6_identity_decoding (env : Env) (s pskd : List Char) (timeout : Nat)
    (hlen : s.length = 16) (hhex : ∀ c ∈ s, isHexChar c = true)
    (hlock : env.lock_acquire 1000 = true) :
    (joiner_add_request env (some s) pskd timeout).2
        = [Event.lock_acquire 1000 true,
           Event.otCommissionerAddJoiner (some ((List.range 8).map (fun i =>
             16 * (hexVal (s.getD (2 * i) (Char.ofNat 0))).getD 0
               + (hexVal (s.getD (2 * i + 1) (Char.ofNat 0))).getD 0)))
             pskd timeout,
           Event.lock_release]
      ∧ joiner_add_request env (some (s.map Char.toUpper)) pskd timeout
          = joiner_add_request env (some s) pskd timeout
      ∧ joiner_add_request env (some (s.map Char.toLower)) pskd timeout
          = joiner_add_request env (some s) pskd timeout
      ∧ (joiner_add_request env (some ['*']) pskd timeout).2
          = [Event.lock_acquire 1000 true,
             Event.otCommissionerAddJoiner none pskd timeout,
             Event.lock_release] := by
  have hU : ∀ c ∈ s.map Char.toUpper, isHexChar c = true := by
    intro c hc
    obtain ⟨a, ha, rfl⟩ := List.mem_map.mp hc
    have := (hexVal_toUpper_toLower (hhex a ha)).1
    unfold isHexChar
    rw [this]
    exact hhex a ha
  have hL : ∀ c ∈ s.map Char.toLower, isHexChar c = true := by
    intro c hc
    obtain ⟨a, ha, rfl⟩ := List.mem_map.mp hc
    have := (hexVal_toUpper_toLower (hhex a ha)).2
    unfold isHexChar
    rw [this]
    exact hhex a ha
  refine ⟨?_, ?_, ?_, ?_⟩
  · rw [joiner_add_request_hex env s pskd timeout hlen hhex hlock]
  · rw [joiner_add_request_hex env s pskd timeout hlen hhex hlock,
      joiner_add_request_hex env _ pskd timeout (by simp [hlen]) hU hlock,
      decoded_bytes_map s Char.toUpper (by decide)
        (fun c h => (hexVal_toUpper_toLower h).1) hlen hhex]
  · rw [joiner_add_request_hex env s pskd timeout hlen hhex hlock,
      joiner_add_request_hex env _ pskd timeout (by simp [hlen]) hL hlock,
      decoded_bytes_map s Char.toLower (by decide)
        (fun c h => (hexVal_toUpper_toLower h).2) hlen hhex]
  · have hs : cstr ['*'] = ['*'] := by decide
    unfold joiner_add_request parse_eui64
    simp only [hs, if_true, hlock, Bool.true_eq_false, if_false]

/-- C6 on the identity `00aAbBcCdDeEfF79`. -/
theorem C6_identity_decoding_witness :
    (joiner_add_request envOk (some "00aAbBcCdDeEfF79".toList)
        "ABCD1234".toList 120).2
      = [Event.lock_acquire 1000 true,
         Event.otCommissionerAddJoiner
           (some [0, 170, 187, 204, 221, 238, 255, 121]) "ABCD1234".toList 120,
         Event.lock_release] :=
  (C6_identity_decoding envOk "00aAbBcCdDeEfF79".toList "ABCD1234".toList 120
    (by decide) (by decide) (by decide)).1.trans (by decide)

/-! ## The unsigned verbs -/

/-- C8, the code on the serial line `commissioner_start` while the
commissioner is ACTIVE: the start is issued to the stack all the same, without
reading the state and with both callbacks null; the same environment makes
`commissioner_start()` and the role-change handler issue no start. -/
theorem C8_serial_start_ignores_state :
    process_command toyHmac envActive "commissioner_start".toList
        = [Event.lock_acquire 1000 true,
           Event.otCommissionerStart none none,
           Event.printf "COMMISSIONER_STARTED\n".toList,
           Event.lock_release] ∧
      commissioner_start envActive = [Event.otCommissionerGetState] ∧
      on_thread_state_changed envActive EventBase.OPENTHREAD_EVENT
          EventId.OPENTHREAD_EVENT_ATTACHED
        = [Event.otThreadGetDeviceRole, Event.lock_acquire 1000 true,
           Event.otCommissionerGetState, Event.lock_release] ∧
      commissioner_start envOk
        = [Event.otCommissionerGetState,
           Event.otCommissionerStart (some Callback.commissioner_state_cb)
             (some Callback.commissioner_joiner_cb)] := by
  decide

/-- C9, the code on an ATTACHED notification: whatever the environment, the
handler reads the device role from the stack before it tries the lock, so its
trace does not keep the stack calls under the lock; with a busy lock the read
is made although the acquisition fails. -/
theorem C9_role_read_outside_lock :
    (∀ env : Env,
        stackCallsUnderLock false
          (on_thread_state_changed env EventBase.OPENTHREAD_EVENT
            EventId.OPENTHREAD_EVENT_ATTACHED) = false) ∧
      on_thread_state_changed envBusy EventBase.OPENTHREAD_EVENT
          EventId.OPENTHREAD_EVENT_ATTACHED
        = [Event.otThreadGetDeviceRole, Event.lock_acquire 1000 false] := by
  refine ⟨fun env => ?_, by decide⟩
  simp [on_thread_state_changed, stackCallsUnderLock, Event.isStackCall]

/-! ## Lock balance -/

theorem lockBalanced_nil : lockBalanced [] := by
  simp [lockBalanced, lockRun, releases, acquisitions]

theorem joiner_add_request_trace (env : Env) (eui64_str : Option (List Char))
    (pskd : List Char) (timeout : Nat) :
    (joiner_add_request env eui64_str pskd timeout).2 = [] ∨
      (joiner_add_request env eui64_str pskd timeout).2
        = [Event.lock_acquire 1000 false] ∨
      ∃ p_id, (joiner_add_request env eui64_str pskd timeout).2
        = [Event.lock_acquire 1000 true,
           Event.otCommissionerAddJoiner p_id pskd timeout,
           Event.lock_release] := by
  unfold joiner_add_request
  cases parse_eui64 eui64_str with
  | none => exact Or.inl rfl
  | some p_id =>
    by_cases h : env.lock_acquire 1000 = false
    · exact Or.inr (Or.inl (by simp [h]))
    · exact Or.inr (Or.inr ⟨p_id, by simp [h]⟩)

theorem lockBalanced_joiner_add_request (env : Env)
    (eui64_str : Option (List Char)) (pskd : List Char) (timeout : Nat) :
    lockBalanced (joiner_add_request env eui64_str pskd timeout).2 := by
  rcases joiner_add_request_trace env eui64_str pskd timeout with h | h | ⟨p, h⟩ <;>
    rw [h] <;> simp [lockBalanced, lockRun, releases, acquisitions]

theorem lockBalanced_joiner_then_printf (env : Env)
    (eui64_str : Option (List Char)) (pskd : List Char) (timeout : Nat)
    (text : List Char) :
    lockBalanced ((joiner_add_request env eui64_str pskd timeout).2
      ++ [Event.printf text]) := by
  rcases joiner_add_request_trace env eui64_str pskd timeout with h | h | ⟨p, h⟩ <;>
    rw [h] <;> simp [lockBalanced, lockRun, releases, acquisitions]

theorem lockBalanced_form_new_network (env : Env) (network_name : List Char) :
    lockBalanced (form_new_network env network_name) := by
  unfold form_new_network
  split_ifs <;> simp [lockBalanced, lockRun, releases, acquisitions]

theorem lockBalanced_on_thread_state_changed (env : Env)
    (event_base : EventBase) (event_id : EventId) :
    lockBalanced (on_thread_state_changed env event_base event_id) := by
  unfold on_thread_state_changed commissioner_start
  split_ifs <;> simp [lockBalanced, lockRun, releases, acquisitions]

theorem lockBalanced_process_command (hmac : Hmac) (env : Env)
    (raw_input : List Char) :
    lockBalanced (process_command hmac env raw_input) := by
  unfold process_command
  simp only
  split_ifs
  any_goals (simp [lockBalanced, lockRun, releases, acquisitions]; done)
  · split
    · exact lockBalanced_form_new_network env _
    · exact lockBalanced_nil
  · split
    · simp [lockBalanced, lockRun, releases, acquisitions]
    · split
      · exact lockBalanced_nil
      · split_ifs
        · split
          · exact lockBalanced_nil
          · split
            · exact lockBalanced_nil
            · exact lockBalanced_joiner_then_printf env _ _ _ _
        · simp [lockBalanced, lockRun, releases, acquisitions]
        · exact lockBalanced_nil

/-- C10: with the lock free at the start, `joiner_add_request`,
`form_new_network`, `process_command` on any line (the serial start and stop
handlers among them) and `on_thread_state_changed` each keep the lock
balanced, whatever the lock attempt and the stack calls return: the lock is
released once when it was acquired and never otherwise, and it is free when
the operation returns. -/
theorem C10_lock_balance (hmac : Hmac) (env : Env) :
    (∀ eui64_str pskd timeout,
        lockBalanced (joiner_add_request env eui64_str pskd timeout).2)
      ∧ (∀ network_name, lockBalanced (form_new_network env network_name))
      ∧ (∀ raw_input, lockBalanced (process_command hmac env raw_input))
      ∧ (∀ event_base event_id,
          lockBalanced (on_thread_state_changed env event_base event_id)) :=
  ⟨lockBalanced_joiner_add_request env, lockBalanced_form_new_network env,
    lockBalanced_process_command hmac env,
    lockBalanced_on_thread_state_changed env⟩

/-! ## Lemmas on the line framer -/

/-- The C string in the buffer once the NUL is written at `pos` is the C
string of the `pos` bytes in front of it. -/
theorem cstr_set_nul (buf : List Char) (pos : Nat) (h : pos < buf.length) :
    cstr (buf.set pos (Char.ofNat 0)) = cstr (buf.take pos) := by
  induction buf generalizing pos with
  | nil => simp at h
  | cons x xs ih =>
    cases pos with
    | zero => simp [cstr]
    | succ n =>
      simp only [List.length_cons, Nat.add_lt_add_iff_right] at h
      have := ih n h
      unfold cstr at this ⊢
      simp only [List.set_cons_succ, List.take_succ_cons, List.takeWhile_cons, this]

/-- `process_command` on the buffer and on the bytes in front of its NUL make
the same calls. -/
theorem process_command_buffer (hmac : Hmac) (env : Env) (buf : List Char)
    (pos : Nat) (h : pos < buf.length) :
    process_command hmac env (buf.set pos (Char.ofNat 0))
      = process_command hmac env (buf.take pos) := by
  unfold process_command strip_line
  rw [cstr_set_nul buf pos h]

theorem uart_rx_chunk_append (st : RxState) (a b : List Char) :
    uart_rx_chunk st (a ++ b)
      = ((uart_rx_chunk (uart_rx_chunk st a).1 b).1,
         (uart_rx_chunk st a).2 ++ (uart_rx_chunk (uart_rx_chunk st a).1 b).2) := by
  induction a generalizing st with
  | nil => simp [uart_rx_chunk]
  | cons c cs ih => simp [uart_rx_chunk, ih, List.append_assoc]

/-- The split of the stream into reads does not matter. -/
theorem uart_rx_task_eq_chunk (st : RxState) (chunks : List (List Char)) :
    uart_rx_task st chunks = uart_rx_chunk st chunks.flatten := by
  induction chunks generalizing st with
  | nil => simp [uart_rx_task, uart_rx_chunk]
  | cons c cs ih =>
    rw [List.flatten_cons, uart_rx_chunk_append, uart_rx_task, ih]

theorem commandLines_append (a b : List RxEvent) :
    commandLines (a ++ b) = commandLines a ++ commandLines b := by
  simp [commandLines]

theorem storeIndices_append (a b : List RxEvent) :
    storeIndices (a ++ b) = storeIndices a ++ storeIndices b := by
  simp [storeIndices]

theorem length_pending (st : RxState) (h : st.wf) :
    (pending st).length
      = if st.line_pos ≥ UART_RX_BUF_SIZE - 1 then 0 else st.line_pos := by
  obtain ⟨hl, hp⟩ := h
  unfold pending
  split_ifs
  · rfl
  · simp only [List.length_take]
    omega

theorem length_pending_le (st : RxState) (h : st.wf) :
    (pending st).length ≤ UART_RX_BUF_SIZE - 2 := by
  rw [length_pending st h]
  simp only [UART_RX_BUF_SIZE]
  split_ifs <;> omega

theorem pending_of_pos_zero (st : RxState) (h : st.line_pos = 0) :
    pending st = [] := by
  simp [pending, h, UART_RX_BUF_SIZE]

theorem wf_rxInit : rxInit.wf :=
  ⟨List.length_replicate _ _, Nat.zero_le _⟩

theorem take_set_self (l : List Char) (n : Nat) (a : Char) :
    (l.set n a).take n = l.take n := by
  induction l generalizing n with
  | nil => simp
  | cons x xs ih =>
    cases n with
    | zero => simp
    | succ n => simp [ih]

theorem take_succ_set_self (l : List Char) (n : Nat) (a : Char)
    (h : n < l.length) : (l.set n a).take (n + 1) = l.take n ++ [a] := by
  induction l generalizing n with
  | nil => simp at h
  | cons x xs ih =>
    cases n with
    | zero => simp
    | succ n =>
      simp only [List.length_cons, Nat.add_lt_add_iff_right] at h
      simp [ih n h]

theorem wf_uart_rx_byte (st : RxState) (c : Char) (h : st.wf) :
    (uart_rx_byte st c).1.wf := by
  obtain ⟨hl, hp⟩ := h
  simp only [UART_RX_BUF_SIZE] at hl hp
  unfold uart_rx_byte RxState.wf
  simp only [UART_RX_BUF_SIZE]
  split_ifs <;> simp only [List.length_set] <;> omega

theorem wf_uart_rx_chunk (st : RxState) (bytes : List Char) (h : st.wf) :
    (uart_rx_chunk st bytes).1.wf := by
  induction bytes generalizing st with
  | nil => exact h
  | cons c cs ih => exact ih _ (wf_uart_rx_byte st c h)

/-- A newline hands over the pending bytes, when there are any, and leaves the
position at 0. -/
theorem uart_rx_byte_newline (st : RxState) (h : st.wf) :
    (uart_rx_byte st '\n').1.line_pos = 0 ∧
      commandLines (uart_rx_byte st '\n').2
        = if pending st = [] then [] else [pending st] := by
  obtain ⟨hl, hp⟩ := h
  simp only [UART_RX_BUF_SIZE] at hl hp
  unfold uart_rx_byte pending
  simp only [UART_RX_BUF_SIZE, if_true, commandLines]
  by_cases h1 : st.line_pos ≥ 1024 - 1
  · simp [h1]
  · by_cases h0 : st.line_pos = 0
    · simp [h0]
    · have hpos : st.line_pos > 0 := Nat.pos_of_ne_zero h0
      have hne : List.take st.line_pos st.line_buffer ≠ [] := by
        intro e
        have := congrArg List.length e
        simp only [List.length_take, List.length_nil] at this
        omega
      simp [h1, hpos, hne, take_set_self]

/-- A carriage return changes neither the pending bytes nor the output. -/
theorem uart_rx_byte_cr (st : RxState) :
    pending (uart_rx_byte st '\r').1 = pending st ∧
      commandLines (uart_rx_byte st '\r').2 = [] := by
  unfold uart_rx_byte pending
  simp only [UART_RX_BUF_SIZE, commandLines]
  by_cases h1 : st.line_pos ≥ 1024 - 1
  · simp [h1]
  · simp [h1]

/-- Any other byte is appended to the pending bytes; when that makes 1023 of
them, nothing is pending any more. -/
theorem uart_rx_byte_other (st : RxState) (c : Char) (h : st.wf)
    (hn : c ≠ '\n') (hr : c ≠ '\r') :
    pending (uart_rx_byte st c).1
        = (if (pending st).length + 1 ≥ UART_RX_BUF_SIZE - 1 then []
           else pending st ++ [c]) ∧
      commandLines (uart_rx_byte st c).2 = [] := by
  have hlen := length_pending st h
  obtain ⟨hl, hp⟩ := h
  simp only [UART_RX_BUF_SIZE] at hl hp hlen
  rw [hlen]
  unfold uart_rx_byte pending
  simp only [UART_RX_BUF_SIZE, commandLines, hn, hr, if_false, ne_eq,
    not_false_eq_true, if_true]
  by_cases h1 : st.line_pos ≥ 1024 - 1
  · have h0 : 0 < st.line_buffer.length := by omega
    simp [h1, take_succ_set_self _ 0 c h0]
  · simp only [h1, if_false]
    refine ⟨?_, by simp⟩
    by_cases h2 : st.line_pos + 1 ≥ 1024 - 1
    · simp [h2]
    · have hlt : st.line_pos < st.line_buffer.length := by omega
      simp only [h2, if_false]
      exact take_succ_set_self _ _ c hlt

/-- A stretch without newline whose bytes, carriage returns apart, fit below
the reset threshold is appended to the pending bytes. -/
theorem uart_rx_chunk_short (seg : List Char) :
    ∀ st : RxState, st.wf → '\n' ∉ seg →
      (pending st).length + (seg.filter (fun c => c != '\r')).length
        < UART_RX_BUF_SIZE - 1 →
      pending (uart_rx_chunk st seg).1
          = pending st ++ seg.filter (fun c => c != '\r') ∧
        commandLines (uart_rx_chunk st seg).2 = [] := by
  induction seg with
  | nil => intro st _ _ _; simp [uart_rx_chunk, commandLines]
  | cons c cs ih =>
    intro st hwf hnl hlen
    have hc : c ≠ '\n' := fun e => hnl (by simp [e])
    have hcs : '\n' ∉ cs := fun e => hnl (by simp [e])
    have hwf' := wf_uart_rx_byte st c hwf
    unfold uart_rx_chunk
    simp only [commandLines_append]
    by_cases hr : c = '\r'
    · subst hr
      obtain ⟨e1, e2⟩ := uart_rx_byte_cr st
      have hf : List.filter (fun c => c != '\r') ('\r' :: cs)
          = List.filter (fun c => c != '\r') cs := by simp
      rw [hf] at hlen ⊢
      obtain ⟨i1, i2⟩ := ih _ hwf' hcs (by rw [e1]; exact hlen)
      rw [i1, i2, e1, e2]
      exact ⟨rfl, rfl⟩
    · obtain ⟨e1, e2⟩ := uart_rx_byte_other st c hwf hc hr
      have hf : List.filter (fun c => c != '\r') (c :: cs)
          = c :: List.filter (fun c => c != '\r') cs := by simp [hr]
      rw [hf] at hlen ⊢
      simp only [List.length_cons] at hlen
      rw [if_neg (by omega)] at e1
      obtain ⟨i1, i2⟩ := ih _ hwf' hcs (by
        rw [e1, List.length_append, List.length_singleton]; omega)
      rw [i1, i2, e1, e2]
      exact ⟨by simp, rfl⟩

/-- A run of bytes without newline and carriage return leaves pending the
last `L mod 1023` of the bytes gathered, `L` being their number. -/
theorem uart_rx_chunk_run (run : List Char) :
    ∀ st : RxState, st.wf → (∀ c ∈ run, c ≠ '\n' ∧ c ≠ '\r') →
      pending (uart_rx_chunk st run).1
          = (pending st ++ run).drop
              (((pending st).length + run.length)
                - ((pending st).length + run.length) % (UART_RX_BUF_SIZE - 1)) ∧
        commandLines (uart_rx_chunk st run).2 = [] := by
  induction run with
  | nil =>
    intro st hwf _
    have := length_pending_le st hwf
    simp only [UART_RX_BUF_SIZE] at this ⊢
    simp only [uart_rx_chunk, commandLines, List.filterMap_nil, List.append_nil,
      List.length_nil, Nat.add_zero, and_true]
    rw [Nat.mod_eq_of_lt (by omega), Nat.sub_self, List.drop_zero]
  | cons c cs ih =>
    intro st hwf hrun
    have hc := hrun c (by simp)
    have hcs : ∀ x ∈ cs, x ≠ '\n' ∧ x ≠ '\r' := fun x hx => hrun x (by simp [hx])
    have hwf' := wf_uart_rx_byte st c hwf
    have hle := length_pending_le st hwf
    obtain ⟨e1, e2⟩ := uart_rx_byte_other st c hwf hc.1 hc.2
    obtain ⟨i1, i2⟩ := ih _ hwf' hcs
    unfold uart_rx_chunk
    simp only [commandLines_append, i1, i2, e2, List.append_nil, and_true]
    simp only [UART_RX_BUF_SIZE] at e1 hle ⊢
    by_cases hfull : (pending st).length + 1 ≥ 1024 - 1
    · rw [if_pos hfull] at e1
      have hp : (pending st).length = 1022 := by omega
      rw [e1]
      simp only [List.nil_append, List.length_nil, Nat.zero_add, List.length_cons, hp]
      have hmod : (1022 + (cs.length + 1)) % (1024 - 1) = cs.length % (1024 - 1) := by
        omega
      have hsplit : 1022 + (cs.length + 1) - cs.length % (1024 - 1)
          = (pending st ++ [c]).length + (cs.length - cs.length % (1024 - 1)) := by
        have := Nat.mod_le cs.length (1024 - 1)
        simp only [List.length_append, List.length_singleton, hp]
        omega
      rw [hmod, hsplit, show pending st ++ c :: cs = (pending st ++ [c]) ++ cs by simp,
        List.drop_append]
    · rw [if_neg hfull] at e1
      rw [e1]
      simp only [List.length_append, List.length_singleton, List.length_cons,
        List.append_assoc, List.singleton_append]
      rw [show (pending st).length + (([] : List Char).length + 1) + cs.length
        = (pending st).length + (cs.length + 1) by simp only [List.length_nil]; omega]

theorem line_pos_after_newline (st : RxState) (h : st.wf) (p : List Char) :
    (uart_rx_chunk st (p ++ ['\n'])).1.line_pos = 0 := by
  rw [uart_rx_chunk_append]
  simp only [uart_rx_chunk]
  exact (uart_rx_byte_newline _ (wf_uart_rx_chunk st p h)).1

/-- From a state with nothing pending, a short segment and its newline hand
over the segment without its carriage returns, or nothing when that is
empty. -/
theorem uart_rx_chunk_segment (st : RxState) (h : st.wf) (seg : List Char)
    (hp : pending st = []) (hnl : '\n' ∉ seg)
    (hlen : (seg.filter (fun c => c != '\r')).length < UART_RX_BUF_SIZE - 1) :
    commandLines (uart_rx_chunk st (seg ++ ['\n'])).2
      = if seg.filter (fun c => c != '\r') = [] then []
        else [seg.filter (fun c => c != '\r')] := by
  obtain ⟨e1, e2⟩ := uart_rx_chunk_short seg st h hnl (by rw [hp]; simpa using hlen)
  rw [hp, List.nil_append] at e1
  rw [uart_rx_chunk_append]
  simp only [uart_rx_chunk, commandLines_append, e2, List.nil_append, List.append_nil]
  rw [(uart_rx_byte_newline _ (wf_uart_rx_chunk st seg h)).2, e1]

theorem filter_not_mem {c : Char} {l : List Char} (p : Char → Bool)
    (h : c ∉ l) : c ∉ l.filter p := fun hm => h (List.mem_filter.mp hm).1

/-- C11: whatever the split of the stream into reads, and whatever bytes
`pre` come before (nothing, or anything that ends in a newline, an over-long
segment included), a NUL-free segment `seg` without newline that holds fewer
than 1023 bytes once its carriage returns are removed, followed by its
newline, adds to the lines already handed to `process_command` exactly one
line, the segment without its carriage returns, after them; an empty one adds
nothing.  The line has no NUL, so `process_command` reads all of it. -/
theorem C11_framing (chunks : List (List Char)) (pre seg : List Char)
    (hstream : chunks.flatten = pre ++ seg ++ ['\n'])
    (hpre : pre = [] ∨ ∃ p, pre = p ++ ['\n'])
    (hnl : '\n' ∉ seg) (hnul : Char.ofNat 0 ∉ seg)
    (hlen : (seg.filter (fun c => c != '\r')).length < 1023) :
    commandLines (uart_rx_task rxInit chunks).2
        = commandLines (uart_rx_chunk rxInit pre).2 ++
            (if seg.filter (fun c => c != '\r') = [] then []
             else [seg.filter (fun c => c != '\r')])
      ∧ cstr (seg.filter (fun c => c != '\r'))
          = seg.filter (fun c => c != '\r') := by
  refine ⟨?_, cstr_eq_self (filter_not_mem _ hnul)⟩
  have hwf := wf_uart_rx_chunk rxInit pre wf_rxInit
  have hpend : pending (uart_rx_chunk rxInit pre).1 = [] := by
    apply pending_of_pos_zero
    rcases hpre with rfl | ⟨p, rfl⟩
    · rfl
    · exact line_pos_after_newline rxInit wf_rxInit p
  rw [uart_rx_task_eq_chunk, hstream, List.append_assoc, uart_rx_chunk_append]
  simp only [commandLines_append]
  rw [uart_rx_chunk_segment _ hwf seg hpend hnl hlen]

/-- C13: from a state with the position at 0, a run of `N` bytes without
newline, carriage return and NUL, followed by a newline, hands nothing to
`process_command` when `N mod 1023 = 0` and otherwise exactly one line, the
last `N mod 1023` bytes of the run, which `process_command` reads whole. -/
theorem C13_overlong_tail (st : RxState)
    (hbuf : st.line_buffer.length = UART_RX_BUF_SIZE) (hpos : st.line_pos = 0)
    (run : List Char)
    (hrun : ∀ c ∈ run, c ≠ '\n' ∧ c ≠ '\r' ∧ c ≠ Char.ofNat 0) :
    commandLines (uart_rx_chunk st (run ++ ['\n'])).2
        = (if run.length % 1023 = 0 then []
           else [run.drop (run.length - run.length % 1023)])
      ∧ (run.drop (run.length - run.length % 1023)).length = run.length % 1023
      ∧ cstr (run.drop (run.length - run.length % 1023))
          = run.drop (run.length - run.length % 1023) := by
  have hwf : st.wf := ⟨hbuf, by rw [hpos]; exact Nat.zero_le _⟩
  have hp := pending_of_pos_zero st hpos
  have hlenD : (run.drop (run.length - run.length % 1023)).length
      = run.length % 1023 := by
    have := Nat.mod_le run.length 1023
    rw [List.length_drop]
    omega
  refine ⟨?_, hlenD, ?_⟩
  · obtain ⟨e1, e2⟩ := uart_rx_chunk_run run st hwf
      (fun c hc => ⟨(hrun c hc).1, (hrun c hc).2.1⟩)
    rw [hp] at e1
    simp only [List.nil_append, List.length_nil, Nat.zero_add, UART_RX_BUF_SIZE] at e1
    rw [uart_rx_chunk_append]
    simp only [uart_rx_chunk, commandLines_append, e2, List.nil_append, List.append_nil]
    rw [(uart_rx_byte_newline _ (wf_uart_rx_chunk st run hwf)).2, e1]
    by_cases hz : run.length % 1023 = 0
    · have : run.drop (run.length - run.length % (1024 - 1)) = [] := by
        apply List.eq_nil_of_length_eq_zero
        rw [hlenD, hz]
      rw [if_pos this, if_pos hz]
    · have : run.drop (run.length - run.length % (1024 - 1)) ≠ [] := by
        intro e
        have := congrArg List.length e
        rw [hlenD] at this
        exact hz this
      rw [if_neg this, if_neg hz]
  · apply cstr_eq_self
    intro hm
    exact (hrun _ (List.mem_of_mem_drop hm)).2.2 rfl

/-- One byte writes below index 1023 and hands over only non-empty lines of at
most 1022 bytes. -/
theorem uart_rx_byte_safe (st : RxState) (c : Char) (h : st.wf) :
    (∀ i ∈ storeIndices (uart_rx_byte st c).2, i < UART_RX_BUF_SIZE - 1) ∧
      (∀ line ∈ commandLines (uart_rx_byte st c).2,
        line ≠ [] ∧ line.length ≤ UART_RX_BUF_SIZE - 2) := by
  constructor
  · obtain ⟨hl, hp⟩ := h
    simp only [UART_RX_BUF_SIZE] at hl hp ⊢
    unfold uart_rx_byte storeIndices
    simp only [UART_RX_BUF_SIZE]
    intro i hi
    split_ifs at hi <;> simp at hi <;> omega
  · intro line hline
    by_cases hn : c = '\n'
    · subst hn
      rw [(uart_rx_byte_newline st h).2] at hline
      split_ifs at hline with he
      · simp at hline
      · simp only [List.mem_singleton] at hline
        subst hline
        exact ⟨he, length_pending_le st h⟩
    · by_cases hr : c = '\r'
      · subst hr
        rw [(uart_rx_byte_cr st).2] at hline
        simp at hline
      · rw [(uart_rx_byte_other st c h hn hr).2] at hline
        simp at hline

theorem uart_rx_chunk_safe (bytes : List Char) :
    ∀ st : RxState, st.wf →
      (∀ i ∈ storeIndices (uart_rx_chunk st bytes).2, i < UART_RX_BUF_SIZE - 1) ∧
        (∀ line ∈ commandLines (uart_rx_chunk st bytes).2,
          line ≠ [] ∧ line.length ≤ UART_RX_BUF_SIZE - 2) := by
  induction bytes with
  | nil => intro st _; simp [uart_rx_chunk, storeIndices, commandLines]
  | cons c cs ih =>
    intro st h
    obtain ⟨b1, b2⟩ := uart_rx_byte_safe st c h
    obtain ⟨i1, i2⟩ := ih _ (wf_uart_rx_byte st c h)
    unfold uart_rx_chunk
    simp only [storeIndices_append, commandLines_append, List.mem_append]
    exact ⟨fun i hi => hi.elim (b1 i) (i1 i), fun l hl => hl.elim (b2 l) (i2 l)⟩

/-- The pending bytes after one byte are the old ones, the old ones and the
byte, or none. -/
theorem pending_uart_rx_byte (st : RxState) (c : Char) (h : st.wf) :
    ∀ x ∈ pending (uart_rx_byte st c).1, x ∈ pending st ∨ x = c := by
  intro x hx
  by_cases hn : c = '\n'
  · subst hn
    rw [pending_of_pos_zero _ (uart_rx_byte_newline st h).1] at hx
    simp at hx
  · by_cases hr : c = '\r'
    · subst hr
      rw [(uart_rx_byte_cr st).1] at hx
      exact Or.inl hx
    · rw [(uart_rx_byte_other st c h hn hr).1] at hx
      split_ifs at hx
      · simp at hx
      · simpa using hx

theorem uart_rx_chunk_nul_free (bytes : List Char) :
    ∀ st : RxState, st.wf → Char.ofNat 0 ∉ pending st → Char.ofNat 0 ∉ bytes →
      Char.ofNat 0 ∉ pending (uart_rx_chunk st bytes).1 ∧
        ∀ line ∈ commandLines (uart_rx_chunk st bytes).2, Char.ofNat 0 ∉ line := by
  induction bytes with
  | nil => intro st _ hp _; simpa [uart_rx_chunk, commandLines] using hp
  | cons c cs ih =>
    intro st h hp hb
    have hc : Char.ofNat 0 ≠ c := fun e => hb (List.mem_cons.mpr (Or.inl e))
    have hcs : Char.ofNat 0 ∉ cs := fun e => hb (List.mem_cons.mpr (Or.inr e))
    have hp' : Char.ofNat 0 ∉ pending (uart_rx_byte st c).1 := by
      intro hm
      rcases pending_uart_rx_byte st c h _ hm with h1 | h1
      · exact hp h1
      · exact hc h1
    obtain ⟨i1, i2⟩ := ih _ (wf_uart_rx_byte st c h) hp' hcs
    unfold uart_rx_chunk
    refine ⟨i1, ?_⟩
    intro line hline
    simp only [commandLines_append, List.mem_append] at hline
    rcases hline with hl | hl
    · by_cases hn : c = '\n'
      · subst hn
        rw [(uart_rx_byte_newline st h).2] at hl
        split_ifs at hl
        · simp at hl
        · simp only [List.mem_singleton] at hl
          subst hl
          exact hp
      · by_cases hr : c = '\r'
        · subst hr
          rw [(uart_rx_byte_cr st).2] at hl
          simp at hl
        · rw [(uart_rx_byte_other st c h hn hr).2] at hl
          simp at hl
    · exact i2 line hl

/-- C12: for every byte stream, in any split into reads, the position is at
most 1023 after every byte and the buffer keeps its 1024 bytes, every write
into the buffer (stored byte or terminating NUL) is at an index below 1024,
and every line handed to `process_command` holds at least one byte and at
most 1024.  When the stream has no NUL byte, `process_command` reads each of
these lines whole. -/
theorem C12_buffer_safety (chunks : List (List Char)) :
    (∀ k, (uart_rx_chunk rxInit (chunks.flatten.take k)).1.line_pos ≤ 1023)
      ∧ (uart_rx_task rxInit chunks).1.line_buffer.length = 1024
      ∧ (∀ i ∈ storeIndices (uart_rx_task rxInit chunks).2, i < 1024)
      ∧ (∀ line ∈ commandLines (uart_rx_task rxInit chunks).2,
          line ≠ [] ∧ line.length ≤ 1024)
      ∧ (Char.ofNat 0 ∉ chunks.flatten →
          ∀ line ∈ commandLines (uart_rx_task rxInit chunks).2,
            cstr line = line) := by
  rw [uart_rx_task_eq_chunk]
  obtain ⟨s1, s2⟩ := uart_rx_chunk_safe chunks.flatten rxInit wf_rxInit
  simp only [UART_RX_BUF_SIZE] at s1 s2
  refine ⟨fun k => (wf_uart_rx_chunk rxInit _ wf_rxInit).2,
    (wf_uart_rx_chunk rxInit _ wf_rxInit).1,
    fun i hi => by have := s1 i hi; omega,
    fun l hl => ⟨(s2 l hl).1, by have := (s2 l hl).2; omega⟩, ?_⟩
  intro hnul line hline
  exact cstr_eq_self
    ((uart_rx_chunk_nul_free chunks.flatten rxInit wf_rxInit
      (by rw [pending_of_pos_zero rxInit rfl]; simp) hnul).2 line hline)

/-- C11 on a stream read in three chunks: 1500 bytes without newline, then the
line `add x` with a carriage return, which comes out intact after whatever the
over-long segment produced. -/
theorem C11_framing_witness :
    commandLines (uart_rx_task rxInit
        [List.replicate 1500 'a', "\nadd".toList, " x\r\n".toList]).2
      = commandLines (uart_rx_chunk rxInit (List.replicate 1500 'a' ++ ['\n'])).2
          ++ ["add x".toList] :=
  (C11_framing [List.replicate 1500 'a', "\nadd".toList, " x\r\n".toList]
    (List.replicate 1500 'a' ++ ['\n']) "add x\r".toList
    (by generalize List.replicate 1500 'a' = A; simp)
    (Or.inr ⟨List.replicate 1500 'a', rfl⟩)
    (by decide) (by decide) (by decide)).1.trans
    (congrArg (fun t => commandLines (uart_rx_chunk rxInit
      (List.replicate 1500 'a' ++ ['\n'])).2 ++ t) (by decide))

theorem run_1025_ok :
    ∀ c ∈ List.replicate 1024 'a' ++ ['b'],
      c ≠ '\n' ∧ c ≠ '\r' ∧ c ≠ Char.ofNat 0 := by
  intro c hc
  rcases List.mem_append.mp hc with h | h
  · rw [List.eq_of_mem_replicate h]; decide
  · rw [List.mem_singleton.mp h]; decide

set_option maxRecDepth 20000 in
/-- C13 on a run of 1025 bytes: only its last two bytes reach
`process_command`. -/
theorem C13_overlong_tail_witness :
    commandLines (uart_rx_chunk rxInit
        (List.replicate 1024 'a' ++ ['b'] ++ ['\n'])).2 = ["ab".toList] :=
  (C13_overlong_tail rxInit (List.length_replicate _ _) rfl
    (List.replicate 1024 'a' ++ ['b']) run_1025_ok).1.trans (by
      simp only [List.length_append, List.length_replicate, List.length_singleton]
      decide)

/-- C12 on the stream `ab`, `c\r\n`. -/
theorem C12_buffer_safety_witness :
    cstr "abc".toList = "abc".toList :=
  (C12_buffer_safety ["ab".toList, "c\r\n".toList]).2.2.2.2 (by decide)
    "abc".toList (by decide)

end HVAC
